import Mathlib

/-!
Shallow embedding of the obsidian-wallabag-sync plugin's sync engine
(src/main.ts and the two earlier plugin variants under src/unnamed/),
with theorems settling the specification claims.

Strings are modelled as `String` at the rendering level and as `List Char`
for the character-level transformations (JS `String.replace`,
the hand-rolled HTML-to-Markdown converter, title sanitization).
JS timestamps (`Date.now()`, `tokenExpiry`, `since`) are modelled as `Int`
milliseconds / seconds; the JS float division `Date.now() / 1000` is
modelled as exact integer division, which the claims do not depend on.
-/

namespace WallabagSync

/-- Whitespace for the purposes of the JS regex `\s` and `String.trim`. -/
def isWsChar (c : Char) : Bool :=
  c = ' ' || c = '\t' || c = '\n' || c = '\r' || c = '\x0b' || c = '\x0c'

/-- JS `String.prototype.trim`: strip whitespace at both ends. -/
def trimChars (l : List Char) : List Char :=
  ((l.dropWhile isWsChar).reverse.dropWhile isWsChar).reverse

/-- JS `String.prototype.replace` with a *string* pattern: replaces only the
first occurrence of `p` by `r`, leaving the rest of the string untouched.
Embeds `label.replace(' ', '-')` from `articleToMarkdown` (src/main.ts:196). -/
def replaceFirst (p r : List Char) : List Char → List Char
  | [] => []
  | c :: cs =>
    if p <+: (c :: cs) then r ++ (c :: cs).drop p.length
    else c :: replaceFirst p r cs

/-- Fuel-indexed global replacement: JS `String.replace` with a `/g` literal
pattern scans left to right, replacing non-overlapping occurrences.
Fuel `≥` the list's length makes the fuel irrelevant (for nonempty `p`). -/
def replaceAllF (p r : List Char) : Nat → List Char → List Char
  | _, [] => []
  | 0, s => s
  | f + 1, c :: cs =>
    if p <+: (c :: cs) then r ++ replaceAllF p r f ((c :: cs).drop p.length)
    else c :: replaceAllF p r f cs

/-- JS `/pat/g` replacement of every occurrence of `p` by `r`. -/
def replaceAll (p r s : List Char) : List Char := replaceAllF p r s.length s

/-- Attempt to finish a `/<br\s*\/?>/gi` match, given the characters after the
`<`; returns the remainder of the input on success (src/unnamed/part_000:182). -/
def brTail (cs : List Char) : Option (List Char) :=
  match cs with
  | b :: r :: rest =>
    if (b = 'b' || b = 'B') && (r = 'r' || r = 'R') then
      match rest.dropWhile isWsChar with
      | '/' :: '>' :: rem => some rem
      | '>' :: rem => some rem
      | _ => none
    else none
  | _ => none

/-- Fuel-indexed scanner for `.replace(/<br\s*\/?>/gi, '\n')`. -/
def stripBrF : Nat → List Char → List Char
  | _, [] => []
  | 0, s => s
  | f + 1, c :: cs =>
    if c = '<' then
      match brTail cs with
      | some rem => '\n' :: stripBrF f rem
      | none => c :: stripBrF f cs
    else c :: stripBrF f cs

/-- `.replace(/<br\s*\/?>/gi, '\n')` (src/unnamed/part_000:182). -/
def stripBr (s : List Char) : List Char := stripBrF s.length s

/-- Fuel-indexed scanner for `.replace(/<\/?[^>]+(>|$)/g, '')`: at a `<`,
the greedy `[^>]+` takes every following non-`>` character (at least one is
required, and when the next character is `/` the optional `\/?` makes no
difference to the consumed region); the match then ends at a `>` or at the
end of the string. -/
def stripTagsF : Nat → List Char → List Char
  | _, [] => []
  | 0, s => s
  | f + 1, c :: cs =>
    if c = '<' then
      if (cs.takeWhile (fun x => x ≠ '>')).isEmpty then c :: stripTagsF f cs
      else
        match cs.dropWhile (fun x => x ≠ '>') with
        | [] => []
        | _ :: rest => stripTagsF f rest
    else c :: stripTagsF f cs

/-- `.replace(/<\/?[^>]+(>|$)/g, '')` — tag stripping (src/unnamed/part_000:183). -/
def stripTags (s : List Char) : List Char := stripTagsF s.length s

/-- The hand-rolled HTML-to-Markdown converter `htmlToMarkdown`
(src/unnamed/part_000:180-189 and src/unnamed/part_001:183-192):
`<br>` to newline, tag stripping, then the entity replacements in the fixed
order `&nbsp;`, `&amp;`, `&lt;`, `&gt;`, then `trim()`. -/
def htmlToMarkdown (s : List Char) : List Char :=
  trimChars
    (replaceAll ['&', 'g', 't', ';'] ['>']
      (replaceAll ['&', 'l', 't', ';'] ['<']
        (replaceAll ['&', 'a', 'm', 'p', ';'] ['&']
          (replaceAll ['&', 'n', 'b', 's', 'p', ';'] [' ']
            (stripTags (stripBr s))))))

/-! ## Data model -/

/-- A Wallabag tag: the code only reads `t.label` (src/main.ts:196). -/
structure Tag where
  label : String
deriving DecidableEq

/-- A remote article, with the fields the code reads:
`id, title, url, created_at, content, tags` (src/main.ts:193-204).
An absent `tags` array is modelled as `[]` (the code's `article.tags || []`),
an absent/empty body as `content = ""` (falsy in `article.content ? … : ''`). -/
structure Article where
  id : Int
  title : String
  url : String
  created_at : String
  content : String
  tags : List Tag
deriving DecidableEq

/-- The plugin settings object (src/main.ts:14-29). `tokenExpiry` is an
absolute Unix timestamp in milliseconds, `since` a Unix timestamp in
seconds. -/
structure Settings where
  noteFolder : String
  instanceUrl : String
  clientId : String
  clientSecret : String
  username : String
  password : String
  onlyStarred : Bool
  accessToken : String
  refreshToken : String
  tokenExpiry : Int
  since : Int
deriving DecidableEq

/-- Body of a successful token-endpoint response (src/main.ts:121-124). -/
structure TokenResp where
  access_token : String
  refresh_token : String
  expires_in : Int
deriving DecidableEq

/-- One scripted response of the entries endpoint: either a non-success HTTP
response, or a success carrying `_embedded.items` and whether `_links.next`
is present. -/
inductive PageResp where
  | fail
  | ok (items : List Article) (next : Bool)
deriving DecidableEq

/-- A GET request issued by the fetch loop: the URL and the value of its
`Authorization` header (src/main.ts:162-166). -/
structure WbRequest where
  url : String
  auth : String
deriving DecidableEq

/-! ## Authenticator and token store -/

/-- How a call to `authenticate` ended (src/main.ts:97-126): credentials
missing (`throw new Error('Missing credentials')` before any network call),
a non-success token-endpoint response (`throw` of the response text), or
success. -/
inductive AuthStatus where
  | configError
  | httpError
  | ok
deriving DecidableEq

/-- Result of `authenticate`: whether the token-endpoint POST was issued,
how the call ended, and the settings as persisted afterwards. -/
structure AuthResult where
  status : AuthStatus
  networkCalled : Bool
  settings : Settings
deriving DecidableEq

/-- `authenticate()` (src/main.ts:97-126). `resp = none` scripts a
non-success HTTP response; `resp = some d` a success with body `d`.
JS falsiness of a missing credential is the empty string. -/
def authenticate (s : Settings) (nowMs : Int) (resp : Option TokenResp) : AuthResult :=
  if s.instanceUrl = "" ∨ s.clientId = "" ∨ s.clientSecret = "" ∨
      s.username = "" ∨ s.password = "" then
    ⟨.configError, false, s⟩
  else
    match resp with
    | none => ⟨.httpError, true, s⟩
    | some d =>
        ⟨.ok, true,
          { s with
            accessToken := d.access_token
            refreshToken := d.refresh_token
            tokenExpiry := nowMs + d.expires_in * 1000 }⟩

/-- Result of `ensureTokenValid`: whether `authenticate` was invoked, how the
call ended (`ok` when no authentication was needed), and the settings. -/
structure EnsureResult where
  authInvoked : Bool
  status : AuthStatus
  settings : Settings
deriving DecidableEq

/-- `ensureTokenValid()` (src/main.ts:128-132): re-authenticates iff
`!accessToken || Date.now() > tokenExpiry - 60 * 1000`. -/
def ensureTokenValid (s : Settings) (nowMs : Int) (resp : Option TokenResp) :
    EnsureResult :=
  if s.accessToken = "" ∨ nowMs > s.tokenExpiry - 60 * 1000 then
    let a := authenticate s nowMs resp
    ⟨true, a.status, a.settings⟩
  else ⟨false, .ok, s⟩

/-! ## Article fetcher -/

/-- How the fetch loop ended: a thrown `FetchError` on a non-success page,
success with the accumulated articles, or the scripted environment ran out
of responses while the loop still wanted another page (an instance that
always sets a `next` link never terminates the loop). -/
inductive FetchStatus where
  | error
  | success (articles : List Article)
  | outOfScript
deriving DecidableEq

/-- The per-page URL built by the fetch loop (src/main.ts:162-163). -/
def pageURL (instanceUrl : String) (since : Int) (page : Nat) (starred : Bool) :
    String :=
  let base := instanceUrl ++ "/api/entries.json?since=" ++ toString since ++
    "&page=" ++ toString page ++ "&perPage=30"
  if starred then base ++ "&starred=1" else base

/-- The `while (hasMore)` loop of `fetchArticles` (src/main.ts:161-172),
recording every request it issues. `since`, `accessToken` and `instanceUrl`
are destructured once at entry and never change during the loop. -/
def fetchLoop (instanceUrl accessToken : String) (since : Int) (starred : Bool) :
    Nat → List Article → List PageResp → List WbRequest × FetchStatus
  | _, _, [] => ([], .outOfScript)
  | page, acc, p :: rest =>
    let req : WbRequest :=
      ⟨pageURL instanceUrl since page starred, "Bearer " ++ accessToken⟩
    match p with
    | .fail => ([req], .error)
    | .ok items true =>
      let t := fetchLoop instanceUrl accessToken since starred (page + 1)
        (acc ++ items) rest
      (req :: t.1, t.2)
    | .ok items false => ([req], .success (acc ++ items))

/-- Result of `fetchArticles`: the requests issued, how the fetch ended, and
the settings as persisted afterwards. -/
structure FetchOut where
  requests : List WbRequest
  status : FetchStatus
  settings : Settings
deriving DecidableEq

/-- `fetchArticles()` (src/main.ts:152-176). `newSince = Date.now() / 1000`
is captured before the loop; on success — and only on success — the loop
is followed by `this.settings.since = newSince; await this.saveSettings()`,
so the watermark is persisted as soon as the fetch loop completes, before
any note writes. A thrown `FetchError` leaves the settings untouched. -/
def fetchArticles (s : Settings) (nowMs : Int) (script : List PageResp) :
    FetchOut :=
  match fetchLoop s.instanceUrl s.accessToken s.since s.onlyStarred 1 [] script with
  | (reqs, .success arts) => ⟨reqs, .success arts, { s with since := nowMs / 1000 }⟩
  | (reqs, .error) => ⟨reqs, .error, s⟩
  | (reqs, .outOfScript) => ⟨reqs, .outOfScript, s⟩

/-! ## Note reconciler -/

/-- The nine filesystem-unsafe characters of the sanitizing regex
`/[\\/:*?"<>|]/g` (src/main.ts:180). -/
def unsafeChars : List Char := ['\\', '/', ':', '*', '?', '"', '<', '>', '|']

/-- One step of the global single-character-class replacement. -/
def sanitizeChar (c : Char) : Char := if c ∈ unsafeChars then '-' else c

/-- `article.title.replace(/[\\/:*?"<>|]/g, '-')` (src/main.ts:180). -/
def sanitizedTitle (t : String) : String := String.mk (t.toList.map sanitizeChar)

/-- The derived note path `${folder}/${sanitizedTitle}.md`
(src/main.ts:181-182). -/
def articleFilePath (folder : String) (a : Article) : String :=
  folder ++ "/" ++ sanitizedTitle a.title ++ ".md"

/-- `t.label.replace(' ', '-')` (src/main.ts:196): JS string-pattern replace,
so only the first space of the label is replaced. -/
def tagLabelXform (label : List Char) : List Char :=
  replaceFirst [' '] ['-'] label

/-- The rendered `tags:` frontmatter value
`(article.tags || []).map(t => t.label.replace(' ', '-')).join(', ')`
(src/main.ts:196). -/
def tagsField (tags : List Tag) : String :=
  String.intercalate ", " (tags.map fun t => String.mk (tagLabelXform t.label.toList))

/-- `articleToMarkdown(article)` (src/main.ts:193-205). The HTML-to-Markdown
conversion (`this.turndownService.turndown` in src/main.ts, the hand-rolled
`htmlToMarkdown` in the src/unnamed variants) is an external deterministic
function passed as `conv`. -/
def articleToMarkdown (conv : String → String) (a : Article) : String :=
  "---\nurl: " ++ a.url ++
  "\ntags: " ++ tagsField a.tags ++
  "\ncreated_at: " ++ a.created_at ++
  "\nwallabag id: " ++ toString a.id ++
  "\n---\n\n# " ++ a.title ++ "\n\n" ++
  (if a.content = "" then "" else conv a.content) ++ "\n"

/-- The vault, modelled as a path-addressed association list of file
contents (every entry is a `TFile`). -/
abbrev Vault := List (String × String)

/-- `vault.getAbstractFileByPath(filePath)` (src/main.ts:185). -/
def vaultGet (p : String) : Vault → Option String
  | [] => none
  | (q, c) :: t => if q = p then some c else vaultGet p t

/-- `vault.modify(existing, noteContent)` (src/main.ts:187): overwrite the
content stored at path `p`. -/
def vaultModify (p c : String) : Vault → Vault
  | [] => []
  | (q, d) :: t =>
    if q = p then (q, c) :: vaultModify p c t else (q, d) :: vaultModify p c t

/-- `vault.create(filePath, noteContent)` (src/main.ts:189). -/
def vaultCreate (p c : String) (v : Vault) : Vault := v ++ [(p, c)]

/-- `createOrUpdateArticleNote(article, folder)` (src/main.ts:178-191). -/
def createOrUpdateArticleNote (conv : String → String) (v : Vault)
    (a : Article) (folder : String) : Vault :=
  match vaultGet (articleFilePath folder a) v with
  | some _ => vaultModify (articleFilePath folder a) (articleToMarkdown conv a) v
  | none => vaultCreate (articleFilePath folder a) (articleToMarkdown conv a) v

/-! ## Sync entry point -/

/-- `ensureFolderExists` (src/main.ts:207-212) only touches the adapter's
directory tree, which the flat path-addressed vault model does not track. -/
def ensureFolderExists (v : Vault) (_folder : String) : Vault := v

/-- The `for (const article of articles)` write loop of
`syncWallabagArticles` (src/main.ts:142-144). `writeOk a = false` scripts a
note write that throws; the thrown error aborts the remaining batch. -/
def writeLoop (conv : String → String) (writeOk : Article → Bool)
    (folder : String) : Vault → List Article → Vault × Bool
  | v, [] => (v, true)
  | v, a :: as =>
    if writeOk a then
      writeLoop conv writeOk folder (createOrUpdateArticleNote conv v a folder) as
    else (v, false)

/-- How a sync invocation ended: all articles written, some step threw (the
top-level `catch`), or the scripted page list ran out mid-loop. -/
inductive SyncOutcome where
  | completed (count : Nat)
  | failed
  | hung
deriving DecidableEq

/-- Result of a sync run: the settings as persisted, the vault, and the
outcome. -/
structure SyncOut where
  settings : Settings
  vault : Vault
  outcome : SyncOutcome
deriving DecidableEq

/-- `syncWallabagArticles()` (src/main.ts:134-150): token check, fetch,
folder check, then sequential note writes; every thrown error is caught at
the top level, leaving whatever settings mutations already happened
persisted. -/
def syncWallabagArticles (conv : String → String) (s : Settings) (v : Vault)
    (nowMs : Int) (authResp : Option TokenResp) (script : List PageResp)
    (writeOk : Article → Bool) : SyncOut :=
  if (ensureTokenValid s nowMs authResp).status = AuthStatus.ok then
    match fetchArticles (ensureTokenValid s nowMs authResp).settings nowMs
      script with
    | ⟨_, .error, s'⟩ => ⟨s', v, .failed⟩
    | ⟨_, .outOfScript, s'⟩ => ⟨s', v, .hung⟩
    | ⟨_, .success arts, s'⟩ =>
      let folder := if s'.noteFolder = "" then "Wallabag" else s'.noteFolder
      let w := writeLoop conv writeOk folder (ensureFolderExists v folder) arts
      ⟨s', w.1, if w.2 then .completed arts.length else .failed⟩
  else ⟨(ensureTokenValid s nowMs authResp).settings, v, .failed⟩

/-- Spec-side rendering of the `tags:` value, following the words of the
claim: "the comma-joined list of tag labels in which every space inside
each label has been replaced by '-'" — for comparison with the
source-derived `tagsField`. -/
def tagsFieldSpec (tags : List Tag) : String :=
  String.intercalate ", "
    (tags.map fun t =>
      String.mk (t.label.toList.map fun c => if c = ' ' then '-' else c))

/-! ## Vault lemmas -/

theorem vaultGet_modify (p c : String) (v : Vault) :
    vaultGet p (vaultModify p c v) = (vaultGet p v).map fun _ => c := by
  induction v with
  | nil => rfl
  | cons e t ih =>
    obtain ⟨q, d⟩ := e
    by_cases hq : q = p
    · subst hq
      simp [vaultModify, vaultGet]
    · simpa [vaultModify, vaultGet, hq] using ih

theorem vaultModify_idem (p c : String) (v : Vault) :
    vaultModify p c (vaultModify p c v) = vaultModify p c v := by
  induction v with
  | nil => rfl
  | cons e t ih =>
    obtain ⟨q, d⟩ := e
    by_cases hq : q = p
    · subst hq
      simpa [vaultModify] using ih
    · simpa [vaultModify, hq] using ih

theorem vaultGet_create_of_none (p c : String) (v : Vault)
    (h : vaultGet p v = none) : vaultGet p (vaultCreate p c v) = some c := by
  induction v with
  | nil => simp [vaultCreate, vaultGet]
  | cons e t ih =>
    obtain ⟨q, d⟩ := e
    by_cases hq : q = p
    · subst hq
      simp [vaultGet] at h
    · simp only [vaultGet, hq, if_false] at h
      simpa [vaultCreate, vaultGet, hq] using ih h

theorem vaultModify_create_of_none (p c : String) (v : Vault)
    (h : vaultGet p v = none) :
    vaultModify p c (vaultCreate p c v) = vaultCreate p c v := by
  induction v with
  | nil => simp [vaultCreate, vaultModify]
  | cons e t ih =>
    obtain ⟨q, d⟩ := e
    by_cases hq : q = p
    · subst hq
      simp [vaultGet] at h
    · simp only [vaultGet, hq, if_false] at h
      simpa [vaultCreate, vaultModify, hq] using ih h

/-! ## Small list lemmas used by several proofs -/

theorem singletonPre {x c : Char} {t : List Char} :
    [x] <+: (c :: t) ↔ x = c := by
  constructor
  · rintro ⟨u, hu⟩
    injection hu with h1 _
  · rintro rfl
    exact ⟨t, rfl⟩

/-! ## Claim C3 — reconciliation is idempotent -/

/-- Claim C3: reconciliation is idempotent — for every article and target
folder, running `createOrUpdateArticleNote` a second time with no
intervening edit leaves the vault unchanged, and the note stored at the
derived path after either run is exactly `articleToMarkdown` of the article
(byte-identical content both times; the derived path is a pure function of
the article and folder, hence the same both times). -/
theorem createOrUpdate_of_none (conv : String → String) (v : Vault)
    (a : Article) (folder : String)
    (h : vaultGet (articleFilePath folder a) v = none) :
    createOrUpdateArticleNote conv v a folder =
      vaultCreate (articleFilePath folder a) (articleToMarkdown conv a) v := by
  unfold createOrUpdateArticleNote
  rw [h]

theorem createOrUpdate_of_some (conv : String → String) (v : Vault)
    (a : Article) (folder : String) (d : String)
    (h : vaultGet (articleFilePath folder a) v = some d) :
    createOrUpdateArticleNote conv v a folder =
      vaultModify (articleFilePath folder a) (articleToMarkdown conv a) v := by
  unfold createOrUpdateArticleNote
  rw [h]

theorem claim_C3_reconcile_idempotent (conv : String → String) (v : Vault)
    (a : Article) (folder : String) :
    createOrUpdateArticleNote conv
        (createOrUpdateArticleNote conv v a folder) a folder =
      createOrUpdateArticleNote conv v a folder ∧
    vaultGet (articleFilePath folder a)
        (createOrUpdateArticleNote conv v a folder) =
      some (articleToMarkdown conv a) := by
  cases h : vaultGet (articleFilePath folder a) v with
  | none =>
    have e1 := createOrUpdate_of_none conv v a folder h
    have hg : vaultGet (articleFilePath folder a)
        (createOrUpdateArticleNote conv v a folder) =
        some (articleToMarkdown conv a) := by
      rw [e1]
      exact vaultGet_create_of_none _ _ _ h
    refine ⟨?_, hg⟩
    rw [createOrUpdate_of_some conv _ a folder _ hg, e1]
    exact vaultModify_create_of_none _ _ _ h
  | some d =>
    have e1 := createOrUpdate_of_some conv v a folder d h
    have hg : vaultGet (articleFilePath folder a)
        (createOrUpdateArticleNote conv v a folder) =
        some (articleToMarkdown conv a) := by
      rw [e1, vaultGet_modify, h]
      rfl
    refine ⟨?_, hg⟩
    rw [createOrUpdate_of_some conv _ a folder _ hg, e1]
    exact vaultModify_idem _ _ _

/-! ## Claim C4 — token freshness -/

/-- Claim C4: `ensureTokenValid` invokes authentication if and only if no
access token is held or the held token's expiry is less than 60 seconds
after the current time; in particular, with a held token whose expiry is
120 seconds in the future, no re-authentication occurs. -/
theorem claim_C4_token_freshness (s : Settings) (nowMs : Int)
    (resp : Option TokenResp) :
    ((ensureTokenValid s nowMs resp).authInvoked = true ↔
      (s.accessToken = "" ∨ s.tokenExpiry - nowMs < 60 * 1000)) ∧
    (s.accessToken ≠ "" → s.tokenExpiry = nowMs + 120 * 1000 →
      (ensureTokenValid s nowMs resp).authInvoked = false) := by
  unfold ensureTokenValid
  split
  · rename_i h
    refine ⟨⟨fun _ => ?_, fun _ => rfl⟩, fun h1 h2 => ?_⟩
    · rcases h with h | h
      · exact Or.inl h
      · exact Or.inr (by omega)
    · rcases h with h | h
      · exact absurd h h1
      · exfalso
        omega
  · rename_i h
    push_neg at h
    refine ⟨⟨fun hf => absurd hf (by simp), fun hp => ?_⟩, fun _ _ => rfl⟩
    exfalso
    rcases hp with h1 | h1
    · exact h.1 h1
    · have := h.2
      omega

/-- Witness for claim C4: with token `"tok"` held and expiry exactly 120
seconds after now, no authentication happens. -/
theorem claim_C4_witness :
    (ensureTokenValid
      { noteFolder := "W", instanceUrl := "http://w", clientId := "c",
        clientSecret := "s", username := "u", password := "p",
        onlyStarred := true, accessToken := "tok", refreshToken := "r",
        tokenExpiry := 1120000, since := 0 } 1000000 none).authInvoked = false :=
  (claim_C4_token_freshness _ 1000000 none).2 (by decide) (by decide)

/-! ## Claim C6 — title sanitization and file path -/

/-- Claim C6: the sanitized title is the character-wise image of the title in
which each of the nine characters `\ / : * ? " < > |` becomes `-` and every
other character is unchanged, the derived file path is
`{folder}/{sanitizedTitle}.md`, and the title `"A/B? Test"` sanitizes to
`"A-B- Test"`. -/
theorem claim_C6_sanitize (folder : String) (a : Article) :
    articleFilePath folder a =
      folder ++ "/" ++ sanitizedTitle a.title ++ ".md" ∧
    (sanitizedTitle a.title).toList = a.title.toList.map sanitizeChar ∧
    (∀ c ∈ unsafeChars, sanitizeChar c = '-') ∧
    (∀ c, c ∉ unsafeChars → sanitizeChar c = c) ∧
    sanitizedTitle "A/B? Test" = "A-B- Test" := by
  refine ⟨rfl, rfl, ?_, ?_, by decide⟩
  · intro c hc
    simp [sanitizeChar, hc]
  · intro c hc
    simp [sanitizeChar, hc]

/-- Witness for claim C6: `?` is replaced by `-`, `A` is left unchanged. -/
theorem claim_C6_witness :
    sanitizeChar '?' = '-' ∧ sanitizeChar 'A' = 'A' :=
  ⟨(claim_C6_sanitize "F" ⟨1, "t", "u", "d", "", []⟩).2.2.1 '?' (by decide),
   (claim_C6_sanitize "F" ⟨1, "t", "u", "d", "", []⟩).2.2.2.1 'A' (by decide)⟩

/-! ## Claim C8 — pagination termination -/

/-- Claim C8: when the first page's response has no `next` link, the fetch
makes exactly one page request and returns exactly that page's items,
whatever responses would come after; an empty first page with no `next`
link yields an empty article sequence without error. -/
theorem claim_C8_pagination (s : Settings) (nowMs : Int)
    (items : List Article) (rest : List PageResp) :
    (fetchArticles s nowMs (PageResp.ok items false :: rest)).status =
      FetchStatus.success items ∧
    (fetchArticles s nowMs (PageResp.ok items false :: rest)).requests.length
      = 1 ∧
    (fetchArticles s nowMs [PageResp.ok [] false]).status =
      FetchStatus.success [] := by
  refine ⟨?_, ?_, rfl⟩ <;> simp [fetchArticles, fetchLoop]

/-! ## Claim C9 — credential preconditions -/

/-- Claim C9: if any of the five credential fields is empty, `authenticate`
fails with the configuration error before making any network call and
leaves the settings (including the stored token state) unchanged; the
token-endpoint POST is issued exactly when all five fields are non-empty. -/
theorem claim_C9_credentials (s : Settings) (nowMs : Int)
    (resp : Option TokenResp) :
    ((s.instanceUrl = "" ∨ s.clientId = "" ∨ s.clientSecret = "" ∨
        s.username = "" ∨ s.password = "") →
      (authenticate s nowMs resp).status = AuthStatus.configError ∧
      (authenticate s nowMs resp).networkCalled = false ∧
      (authenticate s nowMs resp).settings = s) ∧
    ((authenticate s nowMs resp).networkCalled = true ↔
      (s.instanceUrl ≠ "" ∧ s.clientId ≠ "" ∧ s.clientSecret ≠ "" ∧
        s.username ≠ "" ∧ s.password ≠ "")) := by
  unfold authenticate
  constructor
  · intro h
    rw [if_pos h]
    exact ⟨rfl, rfl, rfl⟩
  · split
    · rename_i h
      cases resp <;> simp <;> tauto
    · rename_i h
      push_neg at h
      cases resp <;> simp <;> tauto

/-- Witness for claim C9: with an empty username, authentication fails as a
configuration error, makes no network call, and changes nothing. -/
theorem claim_C9_witness :
    (authenticate
      { noteFolder := "W", instanceUrl := "http://w", clientId := "c",
        clientSecret := "s", username := "", password := "p",
        onlyStarred := true, accessToken := "", refreshToken := "",
        tokenExpiry := 0, since := 0 } 0 none).networkCalled = false :=
  ((claim_C9_credentials _ 0 none).1 (by decide)).2.1

/-! ## Fetch-loop lemmas, claims C5 and C7 -/

theorem fetchLoop_error (u tok : String) (since : Int) (st : Bool) :
    ∀ (k : Nat) (script : List PageResp) (page : Nat) (acc : List Article),
    script.get? k = some PageResp.fail →
    (∀ j < k, ∃ items, script.get? j = some (PageResp.ok items true)) →
    (fetchLoop u tok since st page acc script).2 = FetchStatus.error := by
  intro k
  induction k with
  | zero =>
    intro script page acc hk _
    cases script with
    | nil => simp at hk
    | cons p rest =>
      simp only [List.get?] at hk
      injection hk with hk
      subst hk
      rfl
  | succ k ih =>
    intro script page acc hk hb
    cases script with
    | nil => simp at hk
    | cons p rest =>
      obtain ⟨items, h0⟩ := hb 0 (Nat.succ_pos k)
      simp only [List.get?] at h0
      injection h0 with h0
      subst h0
      simp only [fetchLoop]
      exact ih rest (page + 1) (acc ++ items) hk
        (fun j hj => hb (j + 1) (Nat.succ_lt_succ hj))

theorem fetchArticles_of_error (s : Settings) (nowMs : Int)
    (script : List PageResp)
    (h : (fetchLoop s.instanceUrl s.accessToken s.since s.onlyStarred 1 []
      script).2 = FetchStatus.error) :
    fetchArticles s nowMs script =
      ⟨(fetchLoop s.instanceUrl s.accessToken s.since s.onlyStarred 1 []
        script).1, FetchStatus.error, s⟩ := by
  unfold fetchArticles
  rcases hL : fetchLoop s.instanceUrl s.accessToken s.since s.onlyStarred 1 []
    script with ⟨reqs, status⟩
  rw [hL] at h
  cases status with
  | error => rfl
  | success arts => simp at h
  | outOfScript => simp at h

/-- Claim C5: if the page request at position `k` of a sync's page sequence
returns a non-success HTTP response (and every earlier page succeeded with
a `next` link, so the loop reaches it), the whole fetch ends in the error
status — no article list is returned — and the settings, in particular the
persisted watermark `since`, are exactly as before the sync. -/
theorem claim_C5_fetch_atomicity (s : Settings) (nowMs : Int)
    (script : List PageResp) (k : Nat)
    (hk : script.get? k = some PageResp.fail)
    (hb : ∀ j < k, ∃ items, script.get? j = some (PageResp.ok items true)) :
    (fetchArticles s nowMs script).status = FetchStatus.error ∧
    (fetchArticles s nowMs script).settings = s := by
  have h := fetchLoop_error s.instanceUrl s.accessToken s.since s.onlyStarred
    k script 1 [] hk hb
  rw [fetchArticles_of_error s nowMs script h]
  exact ⟨rfl, rfl⟩

/-- Witness for claim C5: a first page answered with a non-success response
leaves `since = 5` untouched. -/
theorem claim_C5_witness :
    (fetchArticles
      { noteFolder := "W", instanceUrl := "http://w", clientId := "c",
        clientSecret := "s", username := "u", password := "p",
        onlyStarred := true, accessToken := "tok", refreshToken := "r",
        tokenExpiry := 1000000000, since := 5 } 2000000
      [PageResp.fail]).settings =
      { noteFolder := "W", instanceUrl := "http://w", clientId := "c",
        clientSecret := "s", username := "u", password := "p",
        onlyStarred := true, accessToken := "tok", refreshToken := "r",
        tokenExpiry := 1000000000, since := 5 } :=
  (claim_C5_fetch_atomicity _ 2000000 [PageResp.fail] 0 (by decide)
    (fun j hj => absurd hj (by omega))).2

theorem fetchLoop_requests (u tok : String) (since : Int) (st : Bool) :
    ∀ (script : List PageResp) (page : Nat) (acc : List Article),
    ∃ n, (fetchLoop u tok since st page acc script).1 =
      (List.range n).map fun i =>
        (⟨pageURL u since (page + i) st, "Bearer " ++ tok⟩ : WbRequest) := by
  intro script
  induction script with
  | nil => exact fun page acc => ⟨0, rfl⟩
  | cons p rest ih =>
    intro page acc
    have h1 : List.range 1 = [0] := rfl
    cases p with
    | fail =>
      refine ⟨1, ?_⟩
      simp [fetchLoop, h1]
    | ok items next =>
      cases next with
      | false =>
        refine ⟨1, ?_⟩
        simp [fetchLoop, h1]
      | true =>
        obtain ⟨n, hn⟩ := ih (page + 1) (acc ++ items)
        refine ⟨n + 1, ?_⟩
        simp only [fetchLoop]
        rw [hn, List.range_succ_eq_map, List.map_cons, List.map_map]
        have hfun : ((fun i =>
            (⟨pageURL u since (page + i) st, "Bearer " ++ tok⟩ : WbRequest)) ∘
              Nat.succ) = fun i =>
            (⟨pageURL u since (page + 1 + i) st, "Bearer " ++ tok⟩ : WbRequest) := by
          funext i
          show (⟨pageURL u since (page + (i + 1)) st,
            "Bearer " ++ tok⟩ : WbRequest) = _
          have harith : page + (i + 1) = page + 1 + i := by omega
          rw [harith]
        rw [hfun]
        simp only [Nat.add_zero]

theorem fetchArticles_requests (s : Settings) (nowMs : Int)
    (script : List PageResp) :
    (fetchArticles s nowMs script).requests =
      (fetchLoop s.instanceUrl s.accessToken s.since s.onlyStarred 1 []
        script).1 := by
  unfold fetchArticles
  rcases hL : fetchLoop s.instanceUrl s.accessToken s.since s.onlyStarred 1 []
    script with ⟨reqs, status⟩
  cases status <;> rfl

theorem pageURL_eq (u : String) (since : Int) (p : Nat) (st : Bool) :
    pageURL u since p st =
      (u ++ "/api/entries.json?since=" ++ toString since ++ "&page=" ++
        toString p ++ "&perPage=30") ++
      (if st then "&starred=1" else "") := by
  unfold pageURL
  cases st with
  | false => simp
  | true => simp

/-- Claim C7: the requests issued by a fetch run are exactly, in order, one
GET per page numbered consecutively from 1, each against the entries
endpoint with query parameters `since` equal to the *input* settings'
persisted watermark (`fetchArticles` destructures `since` before the loop
and only ever writes the newly captured value after it), `page`,
`perPage=30`, with `&starred=1` appended exactly when the starred-only
filter is on, and with `Authorization: Bearer {accessToken}`. -/
theorem claim_C7_request_params (s : Settings) (nowMs : Int)
    (script : List PageResp) :
    ∃ n, (fetchArticles s nowMs script).requests =
      (List.range n).map fun i =>
        (⟨(s.instanceUrl ++ "/api/entries.json?since=" ++ toString s.since ++
            "&page=" ++ toString (1 + i) ++ "&perPage=30") ++
          (if s.onlyStarred then "&starred=1" else ""),
          "Bearer " ++ s.accessToken⟩ : WbRequest) := by
  obtain ⟨n, hn⟩ := fetchLoop_requests s.instanceUrl s.accessToken s.since
    s.onlyStarred script 1 []
  refine ⟨n, ?_⟩
  rw [fetchArticles_requests, hn]
  simp only [pageURL_eq]

/-! ## Claim C1 — watermark persistence (corrected: persisted after the
fetch loop, before the note writes) -/

/-- Settings of the concrete sync runs: a valid token is held (expiry far in
the future) and the pre-sync watermark is `5`. -/
def cSyncSettings : Settings :=
  { noteFolder := "W", instanceUrl := "http://w", clientId := "c",
    clientSecret := "s", username := "u", password := "p",
    onlyStarred := false, accessToken := "tok", refreshToken := "r",
    tokenExpiry := 1000000000, since := 5 }

/-- Article of the concrete sync runs. -/
def cSyncArticle : Article := ⟨1, "T", "http://x", "2020", "", []⟩

/-- Counterexample to claim C1 as stated: a sync at `Date.now() = 2000000`
(captured watermark `2000`) fetches one article and its note write fails,
so the sync fails — yet the persisted watermark is `2000`, not the
pre-sync value `5`: the watermark does *not* retain its pre-sync value
when a note write fails. -/
theorem claim_C1_counterexample :
    (syncWallabagArticles (fun h => h) cSyncSettings [] 2000000 none
      [PageResp.ok [cSyncArticle] false] (fun _ => false)).outcome =
      SyncOutcome.failed ∧
    (syncWallabagArticles (fun h => h) cSyncSettings [] 2000000 none
      [PageResp.ok [cSyncArticle] false] (fun _ => false)).settings.since =
      2000 ∧
    ¬ (syncWallabagArticles (fun h => h) cSyncSettings [] 2000000 none
      [PageResp.ok [cSyncArticle] false] (fun _ => false)).settings.since =
      5 :=
  ⟨by decide, by decide, by decide⟩

theorem fetchArticles_settings_of_success (s : Settings) (nowMs : Int)
    (script : List PageResp) (arts : List Article)
    (h : (fetchArticles s nowMs script).status = FetchStatus.success arts) :
    (fetchArticles s nowMs script).settings = { s with since := nowMs / 1000 } := by
  unfold fetchArticles at h ⊢
  rcases hL : fetchLoop s.instanceUrl s.accessToken s.since s.onlyStarred 1 []
    script with ⟨reqs, status⟩
  rw [hL] at h
  cases status with
  | success a => rfl
  | error => exact FetchStatus.noConfusion h
  | outOfScript => exact FetchStatus.noConfusion h

theorem fetchArticles_settings_of_error (s : Settings) (nowMs : Int)
    (script : List PageResp)
    (h : (fetchArticles s nowMs script).status = FetchStatus.error) :
    (fetchArticles s nowMs script).settings = s := by
  unfold fetchArticles at h ⊢
  rcases hL : fetchLoop s.instanceUrl s.accessToken s.since s.onlyStarred 1 []
    script with ⟨reqs, status⟩
  rw [hL] at h
  cases status with
  | success a => exact FetchStatus.noConfusion h
  | error => rfl
  | outOfScript => exact FetchStatus.noConfusion h

theorem ensure_since (s : Settings) (nowMs : Int) (resp : Option TokenResp) :
    (ensureTokenValid s nowMs resp).settings.since = s.since := by
  unfold ensureTokenValid
  split
  · show (authenticate s nowMs resp).settings.since = s.since
    unfold authenticate
    split
    · rfl
    · cases resp <;> rfl
  · rfl

/-- Claim C1 as amended: the watermark is persisted as soon as the fetch
loop completes without error — *before* the note writes — so after any sync
whose fetch succeeded the persisted `since` equals the newly captured value
`nowMs / 1000` whether or not the note writes succeed; `since` retains its
pre-sync value exactly when authentication or the fetch itself fails. -/
theorem claim_C1_watermark_amended (conv : String → String) (s : Settings)
    (v : Vault) (nowMs : Int) (authResp : Option TokenResp)
    (script : List PageResp) (writeOk : Article → Bool) :
    ((ensureTokenValid s nowMs authResp).status = AuthStatus.ok →
      ∀ arts,
        (fetchArticles (ensureTokenValid s nowMs authResp).settings nowMs
          script).status = FetchStatus.success arts →
        (syncWallabagArticles conv s v nowMs authResp script
          writeOk).settings.since = nowMs / 1000) ∧
    ((ensureTokenValid s nowMs authResp).status = AuthStatus.ok →
      (fetchArticles (ensureTokenValid s nowMs authResp).settings nowMs
        script).status = FetchStatus.error →
      (syncWallabagArticles conv s v nowMs authResp script
        writeOk).settings.since = s.since) ∧
    (¬ (ensureTokenValid s nowMs authResp).status = AuthStatus.ok →
      (syncWallabagArticles conv s v nowMs authResp script
        writeOk).settings.since = s.since) := by
  refine ⟨fun hok arts hf => ?_, fun hok hf => ?_, fun hbad => ?_⟩
  · unfold syncWallabagArticles
    rw [if_pos hok]
    have hset := fetchArticles_settings_of_success _ nowMs script arts hf
    rcases hFA : fetchArticles (ensureTokenValid s nowMs authResp).settings
      nowMs script with ⟨reqs, status, s'⟩
    rw [hFA] at hf hset
    obtain rfl : status = FetchStatus.success arts := hf
    show s'.since = nowMs / 1000
    have hs' : s' =
        { (ensureTokenValid s nowMs authResp).settings with
          since := nowMs / 1000 } := hset
    rw [hs']
  · unfold syncWallabagArticles
    rw [if_pos hok]
    have hset := fetchArticles_settings_of_error _ nowMs script hf
    rcases hFA : fetchArticles (ensureTokenValid s nowMs authResp).settings
      nowMs script with ⟨reqs, status, s'⟩
    rw [hFA] at hf hset
    obtain rfl : status = FetchStatus.error := hf
    show s'.since = s.since
    have hs' : s' = (ensureTokenValid s nowMs authResp).settings := hset
    rw [hs']
    exact ensure_since s nowMs authResp
  · unfold syncWallabagArticles
    rw [if_neg hbad]
    exact ensure_since s nowMs authResp

/-- Witness for the amended claim C1: a fully successful empty sync at
`Date.now() = 2000000` persists the captured watermark `2000000 / 1000`. -/
theorem claim_C1_witness :
    (syncWallabagArticles (fun h => h) cSyncSettings [] 2000000 none
      [PageResp.ok [] false] (fun _ => true)).settings.since =
      2000000 / 1000 :=
  (claim_C1_watermark_amended (fun h => h) cSyncSettings [] 2000000 none
    [PageResp.ok [] false] (fun _ => true)).1 (by decide) [] (by decide)

/-! ## Claim C2 — tags field (corrected: only the first space is replaced) -/

/-- Concrete article used to exhibit the tags-field behaviour. -/
def cTagArticle : Article :=
  ⟨7, "A/B? Test", "http://e", "2021-01-01", "", [⟨"a b c"⟩, ⟨"solo"⟩]⟩

/-- Counterexample to claim C2 as stated: for the tag label `"a b c"` (two
spaces), the rendered tags field is `"a-b c"` — only the first space is
replaced — which differs from the every-space-replaced `"a-b-c"` the claim
asserts; shown also on the fully rendered note. -/
theorem claim_C2_counterexample :
    tagsField [⟨"a b c"⟩] = "a-b c" ∧
    tagsFieldSpec [⟨"a b c"⟩] = "a-b-c" ∧
    tagsField [⟨"a b c"⟩] ≠ tagsFieldSpec [⟨"a b c"⟩] ∧
    articleToMarkdown (fun h => h) cTagArticle =
      "---\nurl: http://e\ntags: a-b c, solo\ncreated_at: 2021-01-01\nwallabag id: 7\n---\n\n# A/B? Test\n\n\n" := by
  refine ⟨by decide, by decide, by decide, by decide⟩

/-- Claim C2 as amended: in each rendered tag label only the *first* space
is replaced by `-`; everything after it — including further spaces — is
kept verbatim, and a label without spaces is unchanged. -/
theorem claim_C2_tags_amended (a b : List Char) (ha : ' ' ∉ a) :
    tagLabelXform (a ++ ' ' :: b) = a ++ '-' :: b ∧ tagLabelXform a = a := by
  induction a with
  | nil =>
    constructor
    · show replaceFirst [' '] ['-'] (' ' :: b) = '-' :: b
      rw [replaceFirst, if_pos (singletonPre.mpr rfl)]
      rfl
    · rfl
  | cons c a' ih =>
    have hc : c ≠ ' ' := fun h => ha (by simp [h])
    have ha' : ' ' ∉ a' := fun h => ha (List.mem_cons_of_mem _ h)
    obtain ⟨ih1, ih2⟩ := ih ha'
    constructor
    · show replaceFirst [' '] ['-'] (c :: (a' ++ ' ' :: b)) = _
      rw [replaceFirst, if_neg (fun h => hc (singletonPre.mp h).symm)]
      simpa using ih1
    · show replaceFirst [' '] ['-'] (c :: a') = _
      rw [replaceFirst, if_neg (fun h => hc (singletonPre.mp h).symm)]
      simpa using ih2

/-- Witness for the amended claim C2: the label `"x y z"` renders as
`"x-y z"` — first space replaced, second kept. -/
theorem claim_C2_witness :
    tagLabelXform ("x".toList ++ ' ' :: "y z".toList) =
      "x".toList ++ '-' :: "y z".toList :=
  (claim_C2_tags_amended "x".toList "y z".toList (by decide)).1

/-! ## Character-level lemmas for the HTML-to-Markdown converter -/

theorem consPre {a c : Char} {x t : List Char} (h : (a :: x) <+: (c :: t)) :
    a = c ∧ x <+: t := by
  obtain ⟨v, hv⟩ := h
  simp only [List.cons_append] at hv
  injection hv with h1 h2
  exact ⟨h1, v, h2⟩

theorem not_pre_of_head_ne {a c : Char} (hne : a ≠ c) (x t : List Char) :
    ¬ (a :: x) <+: (c :: t) := fun h => hne (consPre h).1

theorem infixCons {x : List Char} {c : Char} {t : List Char}
    (h : x <:+: (c :: t)) : x <+: (c :: t) ∨ x <:+: t := by
  obtain ⟨u, v, huv⟩ := h
  cases u with
  | nil => exact Or.inl ⟨v, by simpa using huv⟩
  | cons a u' =>
    right
    simp only [List.cons_append] at huv
    injection huv with h1 h2
    exact ⟨u', v, h2⟩

theorem infixConsRight {x : List Char} (a : Char) {l : List Char}
    (h : x <:+: l) : x <:+: (a :: l) := by
  obtain ⟨u, v, huv⟩ := h
  exact ⟨a :: u, v, by simp only [List.cons_append, huv]⟩

theorem peel {x : List Char} {a : Char} {t : List Char}
    (h : x <:+: (a :: t)) (hne : x.head? ≠ some a) : x <:+: t := by
  rcases infixCons h with hpfx | h
  · cases x with
    | nil => exact List.nil_infix
    | cons b x' =>
      obtain ⟨hb, -⟩ := consPre hpfx
      exact absurd (show (b :: x').head? = some a by rw [List.head?_cons, hb])
        hne
  · exact h

theorem replaceAllF_fuel (p r : List Char) (hp : p ≠ []) :
    ∀ (f : Nat) (s : List Char) (g : Nat), s.length ≤ f → s.length ≤ g →
    replaceAllF p r f s = replaceAllF p r g s := by
  intro f
  induction f with
  | zero =>
    intro s g hf _
    have hnil : s = [] := List.eq_nil_of_length_eq_zero (Nat.le_zero.mp hf)
    subst hnil
    cases g <;> rfl
  | succ f ih =>
    intro s g hf hg
    cases s with
    | nil => cases g <;> rfl
    | cons c cs =>
      cases g with
      | zero => simp at hg
      | succ g =>
        simp only [List.length_cons] at hf hg
        simp only [replaceAllF]
        by_cases hpre : p <+: (c :: cs)
        · rw [if_pos hpre, if_pos hpre]
          congr 1
          have hlen : ((c :: cs).drop p.length).length ≤ cs.length := by
            rw [List.length_drop, List.length_cons]
            have := List.length_pos.mpr hp
            omega
          exact ih _ g (by omega) (by omega)
        · rw [if_neg hpre, if_neg hpre]
          congr 1
          exact ih cs g (by omega) (by omega)

theorem replaceAll_cons_pos (p r : List Char) (hp : p ≠ []) (c : Char)
    (cs : List Char) (h : p <+: (c :: cs)) :
    replaceAll p r (c :: cs) =
      r ++ replaceAll p r ((c :: cs).drop p.length) := by
  show replaceAllF p r (c :: cs).length (c :: cs) = _
  rw [List.length_cons]
  simp only [replaceAllF]
  rw [if_pos h]
  congr 1
  apply replaceAllF_fuel p r hp
  · rw [List.length_drop, List.length_cons]
    have := List.length_pos.mpr hp
    omega
  · exact le_refl _

theorem replaceAll_cons_neg (p r : List Char) (c : Char) (cs : List Char)
    (h : ¬ p <+: (c :: cs)) :
    replaceAll p r (c :: cs) = c :: replaceAll p r cs := by
  show replaceAllF p r (c :: cs).length (c :: cs) = _
  rw [List.length_cons]
  simp only [replaceAllF]
  rw [if_neg h]
  rfl

theorem mem_replaceAll_aux (p r : List Char) (hp : p ≠ []) (ch : Char)
    (hc : ch ∉ p) :
    ∀ (n : Nat) (s : List Char), s.length ≤ n → ch ∈ s →
    ch ∈ replaceAll p r s := by
  intro n
  induction n with
  | zero =>
    intro s hlen hmem
    have hnil : s = [] := List.eq_nil_of_length_eq_zero (Nat.le_zero.mp hlen)
    subst hnil
    simp at hmem
  | succ n ih =>
    intro s hlen hmem
    cases s with
    | nil => simp at hmem
    | cons c cs =>
      simp only [List.length_cons] at hlen
      by_cases hpre : p <+: (c :: cs)
      · rw [replaceAll_cons_pos p r hp c cs hpre]
        obtain ⟨d, hd⟩ := hpre
        have hdrop : (c :: cs).drop p.length = d := by
          rw [← hd]
          exact List.drop_left p d
        rw [hdrop]
        rw [← hd] at hmem
        rcases List.mem_append.mp hmem with hmem | hmem
        · exact absurd hmem hc
        · refine List.mem_append_right r (ih d ?_ hmem)
          have hlen2 := congrArg List.length hd
          simp only [List.length_append, List.length_cons] at hlen2
          have hppos := List.length_pos.mpr hp
          omega
      · rw [replaceAll_cons_neg p r c cs hpre]
        rcases List.mem_cons.mp hmem with rfl | hmem
        · exact List.mem_cons_self _ _
        · exact List.mem_cons_of_mem c (ih cs (by omega) hmem)

theorem ampLt_infix_replace_nbsp :
    ∀ (n : Nat) (s : List Char), s.length ≤ n →
    ['&', 'a', 'm', 'p', ';', 'l', 't', ';'] <:+: s →
    ['&', 'a', 'm', 'p', ';', 'l', 't', ';'] <:+:
      replaceAll ['&', 'n', 'b', 's', 'p', ';'] [' '] s := by
  intro n
  induction n with
  | zero =>
    intro s hlen hinf
    have hnil : s = [] := List.eq_nil_of_length_eq_zero (Nat.le_zero.mp hlen)
    subst hnil
    obtain ⟨u, v, huv⟩ := hinf
    simp at huv
  | succ n ih =>
    intro s hlen hinf
    cases s with
    | nil =>
      obtain ⟨u, v, huv⟩ := hinf
      simp at huv
    | cons c cs =>
      simp only [List.length_cons] at hlen
      by_cases hpre : ['&', 'n', 'b', 's', 'p', ';'] <+: (c :: cs)
      · rw [replaceAll_cons_pos _ _ (by decide) _ _ hpre]
        obtain ⟨d, hd⟩ := hpre
        have hdrop : (c :: cs).drop
            (['&', 'n', 'b', 's', 'p', ';'] : List Char).length = d := by
          rw [← hd]
          exact List.drop_left _ d
        rw [hdrop]
        rw [← hd] at hinf
        simp only [List.cons_append, List.nil_append] at hinf
        have hdlen : d.length ≤ n := by
          have hlen2 := congrArg List.length hd
          simp only [List.length_append, List.length_cons] at hlen2
          omega
        rcases infixCons hinf with hpfx | h
        · obtain ⟨-, h2⟩ := consPre hpfx
          obtain ⟨hbad, -⟩ := consPre h2
          exact absurd hbad (by decide)
        · have h := peel h (by decide)
          have h := peel h (by decide)
          have h := peel h (by decide)
          have h := peel h (by decide)
          have h := peel h (by decide)
          exact infixConsRight ' ' (ih d hdlen h)
      · rw [replaceAll_cons_neg _ _ _ _ hpre]
        rcases infixCons hinf with hpfx | h
        · obtain ⟨v, hv⟩ := hpfx
          simp only [List.cons_append] at hv
          injection hv with h1 h2
          subst h1
          subst h2
          simp only [List.cons_append, List.nil_append]
          rw [replaceAll_cons_neg _ _ _ _ (not_pre_of_head_ne (by decide) _ _)]
          rw [replaceAll_cons_neg _ _ _ _ (not_pre_of_head_ne (by decide) _ _)]
          rw [replaceAll_cons_neg _ _ _ _ (not_pre_of_head_ne (by decide) _ _)]
          rw [replaceAll_cons_neg _ _ _ _ (not_pre_of_head_ne (by decide) _ _)]
          rw [replaceAll_cons_neg _ _ _ _ (not_pre_of_head_ne (by decide) _ _)]
          rw [replaceAll_cons_neg _ _ _ _ (not_pre_of_head_ne (by decide) _ _)]
          rw [replaceAll_cons_neg _ _ _ _ (not_pre_of_head_ne (by decide) _ _)]
          exact ⟨[], replaceAll _ _ v, rfl⟩
        · exact infixConsRight c (ih cs (by omega) h)

theorem lt_infix_replace_amp :
    ∀ (n : Nat) (s : List Char), s.length ≤ n →
    ['&', 'a', 'm', 'p', ';', 'l', 't', ';'] <:+: s →
    ['&', 'l', 't', ';'] <:+: replaceAll ['&', 'a', 'm', 'p', ';'] ['&'] s := by
  intro n
  induction n with
  | zero =>
    intro s hlen hinf
    have hnil : s = [] := List.eq_nil_of_length_eq_zero (Nat.le_zero.mp hlen)
    subst hnil
    obtain ⟨u, v, huv⟩ := hinf
    simp at huv
  | succ n ih =>
    intro s hlen hinf
    cases s with
    | nil =>
      obtain ⟨u, v, huv⟩ := hinf
      simp at huv
    | cons c cs =>
      simp only [List.length_cons] at hlen
      by_cases hpre : ['&', 'a', 'm', 'p', ';'] <+: (c :: cs)
      · rw [replaceAll_cons_pos _ _ (by decide) _ _ hpre]
        obtain ⟨d, hd⟩ := hpre
        have hdrop : (c :: cs).drop
            (['&', 'a', 'm', 'p', ';'] : List Char).length = d := by
          rw [← hd]
          exact List.drop_left _ d
        rw [hdrop]
        rw [← hd] at hinf
        simp only [List.cons_append, List.nil_append] at hinf
        have hdlen : d.length ≤ n := by
          have hlen2 := congrArg List.length hd
          simp only [List.length_append, List.length_cons] at hlen2
          omega
        rcases infixCons hinf with hpfx | h
        · obtain ⟨w, hw⟩ := hpfx
          simp only [List.cons_append] at hw
          injection hw with _ hw
          injection hw with _ hw
          injection hw with _ hw
          injection hw with _ hw
          injection hw with _ hw
          subst hw
          rw [replaceAll_cons_neg _ _ _ _ (not_pre_of_head_ne (by decide) _ _)]
          rw [replaceAll_cons_neg _ _ _ _ (not_pre_of_head_ne (by decide) _ _)]
          rw [replaceAll_cons_neg _ _ _ _ (not_pre_of_head_ne (by decide) _ _)]
          exact ⟨[], replaceAll _ _ w, rfl⟩
        · have h := peel h (by decide)
          have h := peel h (by decide)
          have h := peel h (by decide)
          have h := peel h (by decide)
          exact infixConsRight '&' (ih d hdlen h)
      · rw [replaceAll_cons_neg _ _ _ _ hpre]
        rcases infixCons hinf with hpfx | h
        · exact absurd (List.IsPrefix.trans
            (by decide : (['&', 'a', 'm', 'p', ';'] : List Char) <+:
              ['&', 'a', 'm', 'p', ';', 'l', 't', ';']) hpfx) hpre
        · exact infixConsRight c (ih cs (by omega) h)

theorem lt_mem_replace_lt :
    ∀ (n : Nat) (s : List Char), s.length ≤ n →
    ['&', 'l', 't', ';'] <:+: s →
    '<' ∈ replaceAll ['&', 'l', 't', ';'] ['<'] s := by
  intro n
  induction n with
  | zero =>
    intro s hlen hinf
    have hnil : s = [] := List.eq_nil_of_length_eq_zero (Nat.le_zero.mp hlen)
    subst hnil
    obtain ⟨u, v, huv⟩ := hinf
    simp at huv
  | succ n ih =>
    intro s hlen hinf
    cases s with
    | nil =>
      obtain ⟨u, v, huv⟩ := hinf
      simp at huv
    | cons c cs =>
      simp only [List.length_cons] at hlen
      by_cases hpre : ['&', 'l', 't', ';'] <+: (c :: cs)
      · rw [replaceAll_cons_pos _ _ (by decide) _ _ hpre]
        exact List.mem_append_left _ (by decide)
      · rw [replaceAll_cons_neg _ _ _ _ hpre]
        rcases infixCons hinf with hpfx | h
        · exact absurd hpfx hpre
        · exact List.mem_cons_of_mem c (ih cs (by omega) h)

theorem stripBrF_no_lt :
    ∀ (f : Nat) (s : List Char), s.length ≤ f → (∀ c ∈ s, c ≠ '<') →
    stripBrF f s = s := by
  intro f
  induction f with
  | zero =>
    intro s hlen _
    have hnil : s = [] := List.eq_nil_of_length_eq_zero (Nat.le_zero.mp hlen)
    subst hnil
    rfl
  | succ f ih =>
    intro s hlen hno
    cases s with
    | nil => rfl
    | cons c cs =>
      simp only [List.length_cons] at hlen
      simp only [stripBrF]
      rw [if_neg (hno c (List.mem_cons_self c cs))]
      congr 1
      exact ih cs (by omega) fun x hx => hno x (List.mem_cons_of_mem c hx)

theorem stripBr_no_lt (s : List Char) (hno : ∀ c ∈ s, c ≠ '<') :
    stripBr s = s := stripBrF_no_lt s.length s (le_refl _) hno

theorem stripTagsF_no_lt :
    ∀ (f : Nat) (s : List Char), s.length ≤ f → (∀ c ∈ s, c ≠ '<') →
    stripTagsF f s = s := by
  intro f
  induction f with
  | zero =>
    intro s hlen _
    have hnil : s = [] := List.eq_nil_of_length_eq_zero (Nat.le_zero.mp hlen)
    subst hnil
    rfl
  | succ f ih =>
    intro s hlen hno
    cases s with
    | nil => rfl
    | cons c cs =>
      simp only [List.length_cons] at hlen
      simp only [stripTagsF]
      rw [if_neg (hno c (List.mem_cons_self c cs))]
      congr 1
      exact ih cs (by omega) fun x hx => hno x (List.mem_cons_of_mem c hx)

theorem stripTags_no_lt (s : List Char) (hno : ∀ c ∈ s, c ≠ '<') :
    stripTags s = s := stripTagsF_no_lt s.length s (le_refl _) hno

theorem mem_dropWhile_of_neg (p : Char → Bool) (c : Char) (hc : p c = false) :
    ∀ l : List Char, c ∈ l → c ∈ l.dropWhile p := by
  intro l
  induction l with
  | nil =>
    intro h
    simp at h
  | cons a t ih =>
    intro h
    by_cases ha : p a = true
    · rcases List.mem_cons.mp h with rfl | h
      · rw [hc] at ha
        exact Bool.noConfusion ha
      · simpa [List.dropWhile, ha] using ih h
    · have ha' : p a = false := by
        revert ha
        cases p a <;> simp
      simpa [List.dropWhile, ha'] using h

theorem mem_trimChars (c : Char) (hc : isWsChar c = false) (l : List Char)
    (h : c ∈ l) : c ∈ trimChars l := by
  unfold trimChars
  apply List.mem_reverse.mpr
  apply mem_dropWhile_of_neg _ _ hc
  apply List.mem_reverse.mpr
  exact mem_dropWhile_of_neg _ _ hc l h

/-! ## Claim C10 — entity decoding order (corrected: tag stripping can
consume the escaped sequence) -/

/-- Counterexample to claim C10 as stated: the input `"x<y&amp;lt;"`
contains the escaped sequence `&amp;lt;`, but the tag-stripping regex
`/<\/?[^>]+(>|$)/g` matches from the `<` to the end of the string and
deletes it, so the output is `"x"`, which contains no `<` at all. -/
theorem claim_C10_counterexample :
    ['&', 'a', 'm', 'p', ';', 'l', 't', ';'] <:+: "x<y&amp;lt;".toList ∧
    htmlToMarkdown ("x<y&amp;lt;".toList) = ['x'] ∧
    '<' ∉ htmlToMarkdown ("x<y&amp;lt;".toList) :=
  ⟨by decide, by decide, by decide⟩

/-- Claim C10 as amended: the entity replacements run sequentially in the
fixed order `&nbsp;`, `&amp;`, `&lt;`, `&gt;` after tag stripping, so for
every input that contains the escaped sequence `&amp;lt;` and contains no
literal `<` character (so that tag stripping cannot consume the sequence),
the converter's output contains `<`: the `&amp;` is decoded first and the
resulting `&lt;` is decoded again, rather than surviving as literal
`&lt;`. -/
theorem claim_C10_entities_amended (s : List Char)
    (hocc : ['&', 'a', 'm', 'p', ';', 'l', 't', ';'] <:+: s)
    (hnolt : '<' ∉ s) :
    '<' ∈ htmlToMarkdown s := by
  have hno : ∀ c ∈ s, c ≠ '<' := fun c hcmem hce => hnolt (hce ▸ hcmem)
  unfold htmlToMarkdown
  rw [stripBr_no_lt s hno, stripTags_no_lt s hno]
  have h1 := ampLt_infix_replace_nbsp s.length s (le_refl _) hocc
  have h2 := lt_infix_replace_amp _ _ (le_refl _) h1
  have h3 := lt_mem_replace_lt _ _ (le_refl _) h2
  have h4 := mem_replaceAll_aux ['&', 'g', 't', ';'] ['>'] (by decide) '<'
    (by decide) _ _ (le_refl _) h3
  exact mem_trimChars '<' (by decide) _ h4

/-- Witness for the amended claim C10: the input `"&amp;lt;"` (no literal
`<`) decodes to an output containing `<`. -/
theorem claim_C10_witness : '<' ∈ htmlToMarkdown ("&amp;lt;".toList) :=
  claim_C10_entities_amended ("&amp;lt;".toList) (by decide) (by decide)

end WallabagSync
